import Mathlib

/-!
Verification of the round-based elimination voting engine of the
ZAO-FRACTAL-BOT2 repository (`respect_commands.py`, `fractal_commands.py`,
`cogs/fractal/group.py`, `cogs/fractal/views.py`).

Members are modelled as opaque natural-number identifiers.  Python 3.7+
dictionaries preserve insertion order and iterate in that order; they are
modelled as association lists (`List (Nat × _)`) whose key order is the
insertion order.  Python ints are modelled by `Int`; the float `n / 2`
stored in `RespectVote.threshold` is exactly representable for every list
length that fits in a float mantissa, so it is modelled by the exact
rational `n / 2 : ℚ`.
-/

/-! ### Ordered-dictionary helpers (Python dict semantics) -/

/-- `d[k]` as an option: the value of the first (and, for dictionaries,
only) entry whose key is `k`. -/
def dlookup {α : Type} (d : List (Nat × α)) (k : Nat) : Option α :=
  (d.find? (fun p => p.1 == k)).map Prod.snd

/-- `k in d` for a Python dict. -/
def dmem {α : Type} (d : List (Nat × α)) (k : Nat) : Bool :=
  d.any (fun p => p.1 == k)

/-- `d[k] = f(d[k])` for a key that is present (e.g. `d[k] += 1`);
a no-op when the key is absent (the Python code only applies it to
present keys — on an absent key Python would raise `KeyError`). -/
def dmodify {α : Type} (d : List (Nat × α)) (k : Nat) (f : α → α) : List (Nat × α) :=
  d.map (fun p => if p.1 == k then (p.1, f p.2) else p)

/-- Overwrite the value stored at a present key, keeping its position. -/
def dsetMap {α : Type} (d : List (Nat × α)) (k : Nat) (v : α) : List (Nat × α) :=
  d.map (fun p => if p.1 == k then (p.1, v) else p)

/-- `d[k] = v`: update in place when the key is present, append otherwise
(Python dicts keep the original position of an updated key). -/
def dset {α : Type} (d : List (Nat × α)) (k : Nat) (v : α) : List (Nat × α) :=
  if dmem d k then dsetMap d k v else d ++ [(k, v)]

/-! ### The `RespectVote` class (`src/respect_commands.py`, lines 13–104)

The `thread`, `message` and `status_message` fields are presentation-layer
handles (chat-platform objects) and carry no engine state; they are omitted.
All other fields of `__init__` are kept with their source names. -/

structure RespectVote where
  original_members : List Nat
  members : List Nat
  votes : List (Nat × Int)
  voter_choices : List (Nat × Nat)
  total_members : Nat
  threshold : ℚ
  current_round : Nat
  round_winners : List Nat
  leader : Option Nat
deriving DecidableEq

/-- `RespectVote.__init__(thread, members, leader)`. -/
def RespectVote.init (members : List Nat) (leader : Option Nat) : RespectVote :=
  { original_members := members
    members := members
    votes := members.map (fun m => (m, (0 : Int)))
    voter_choices := []
    total_members := members.length
    threshold := (members.length : ℚ) / 2
    current_round := 1
    round_winners := []
    leader := leader }

/-- `RespectVote.record_vote(voter, candidate)` (lines 31–46).  Returns the
Python boolean result together with the updated object. -/
def RespectVote.record_vote (s : RespectVote) (voter candidate : Nat) :
    Bool × RespectVote :=
  if voter ∈ s.original_members ∧ candidate ∈ s.members then
    let s1 :=
      match dlookup s.voter_choices voter with
      | some previous_candidate =>
        if dmem s.votes previous_candidate then
          { s with votes := dmodify s.votes previous_candidate (fun n => n - 1) }
        else s
      | none => s
    (true, { s1 with
              votes := dmodify s1.votes candidate (fun n => n + 1)
              voter_choices := dset s1.voter_choices voter candidate })
  else
    (false, s)

/-- `RespectVote.check_threshold_reached()` (lines 48–53): first candidate,
in `votes` iteration (= insertion) order, whose count meets the threshold. -/
def RespectVote.check_threshold_reached (s : RespectVote) : Option Nat :=
  (s.votes.find? (fun p => decide (s.threshold ≤ (p.2 : ℚ)))).map Prod.fst

/-- `RespectVote.is_round_complete()` (lines 55–59). -/
def RespectVote.is_round_complete (s : RespectVote) : Bool :=
  decide (s.original_members.length ≤ s.voter_choices.length) ||
    s.check_threshold_reached.isSome

/-- Python `max(items, key=lambda x: x[1])` over a nonempty list: a strictly
larger value replaces the current best, so ties keep the earliest entry. -/
def maxBySnd (p : Nat × Int) (ps : List (Nat × Int)) : Nat × Int :=
  ps.foldl (fun acc q => if acc.2 < q.2 then q else acc) p

/-- `RespectVote.get_round_winner()` (lines 87–96).  (Platform member
objects are always truthy, so `if threshold_winner:` tests for `None`.) -/
def RespectVote.get_round_winner (s : RespectVote) : Option Nat :=
  match s.check_threshold_reached with
  | some w => some w
  | none =>
    match s.votes with
    | [] => none
    | p :: ps => some (maxBySnd p ps).1

/-- `RespectVote.start_new_round()` (lines 61–85).  Returns the updated
object together with the returned round number. -/
def RespectVote.start_new_round (s : RespectVote) : RespectVote × Nat :=
  let s1 :=
    match s.get_round_winner with
    | some winner =>
      { s with
          round_winners := s.round_winners ++ [winner]
          members := if winner ∈ s.members then s.members.erase winner else s.members }
    | none => s
  if s1.members.length < 2 then
    (s1, s1.current_round)
  else
    let s2 := { s1 with
                  current_round := s1.current_round + 1
                  votes := s1.members.map (fun m => (m, (0 : Int)))
                  voter_choices := []
                  total_members := s1.original_members.length
                  threshold := (s1.original_members.length : ℚ) / 2 }
    (s2, s2.current_round)

/-- State effect of `RespectVoteView.complete_round()` (lines 562–619).
The result flag records whether the session reached final results.  The
round winner must exist (the Python code renders `winner.mention`, which
raises on `None`), hence the `Option`; likewise the singleton-selection
`[m for m in members if m != winner][0]` raises on an empty list. -/
def RespectVote.complete_round (s : RespectVote) : Option (RespectVote × Bool) :=
  s.get_round_winner.bind fun winner =>
    if 2 ≤ s.members.length - 1 then
      some (s, false)
    else
      if s.members.length - 1 = 1 then
        match s.members.filter (fun m => !(m == winner)) with
        | last_member :: _ =>
          some ({ s with round_winners := s.round_winners ++ [last_member] }, true)
        | [] => none
      else
        some (s, true)

/-- Ranking-assembly effect of `ContinueVoteView.show_final_results()`
(lines 209–223): `winners` aliases `round_winners`, the remaining original
members (those not already in `winners`) are computed first and then
appended by `winners.extend(...)`.  Returns the updated object and the
final winners list. -/
def RespectVote.show_final_results (s : RespectVote) : RespectVote × List Nat :=
  let remaining_members := s.original_members.filter (fun m => !(s.round_winners.contains m))
  let winners := s.round_winners ++ remaining_members
  ({ s with round_winners := winners }, winners)

/-- `fibonacci_points` (line 237). -/
def fibonacci_points : List Nat := [110, 68, 42, 26, 16, 10]

/-- Point assignment of the results loop (lines 239–256):
`fibonacci_points[i] if i < len(fibonacci_points) else 0` for the member at
0-based position `i` of the final winners list. -/
def awardPoints (winners : List Nat) : List (Nat × Nat) :=
  winners.enum.map (fun p =>
    (p.2, if p.1 < fibonacci_points.length then fibonacci_points.getD p.1 0 else 0))

/-- Essence of `VoteButton.callback` (lines 303–370): reject users outside
`original_members`, otherwise record the vote and then evaluate
`is_round_complete()` on the updated state.  Returns the new state, the
`record_vote` result, and the completion flag. -/
def RespectVote.voteStep (s : RespectVote) (voter candidate : Nat) :
    RespectVote × Bool × Bool :=
  if voter ∈ s.original_members then
    let r := s.record_vote voter candidate
    (r.2, r.1, r.2.is_round_complete)
  else
    (s, false, false)

/-! ### The `FractalGroup` class of `src/cogs/fractal/group.py` (lines 12–77)

Only the engine-state fields; message handles and embed rendering are
presentation-layer.  Vote counts are created on demand in this variant, so
the tally keys are not fixed at round start. -/

structure FractalGroup where
  name : String
  facilitator : Nat
  members : List Nat
  spectators : List Nat
  external_voters : List Nat
  votes : List (Nat × Nat)
  vote_counts : List (Nat × Int)
  current_level : Int
  winners : List (Int × Nat)
deriving DecidableEq

/-- `FractalGroup.record_vote(voter, candidate)` (group.py lines 50–77). -/
def FractalGroup.record_vote (g : FractalGroup) (voter candidate : Nat) :
    Bool × FractalGroup :=
  if voter ∉ g.members ∧ voter ∉ g.external_voters then
    (false, g)
  else
    let g1 :=
      match dlookup g.votes voter with
      | some previous_vote =>
        if dmem g.vote_counts previous_vote then
          { g with vote_counts := dmodify g.vote_counts previous_vote (fun n => n - 1) }
        else g
      | none => g
    let g2 := { g1 with votes := dset g1.votes voter candidate }
    let g3 :=
      if dmem g2.vote_counts candidate then g2
      else { g2 with vote_counts := g2.vote_counts ++ [(candidate, 0)] }
    (true, { g3 with vote_counts := dmodify g3.vote_counts candidate (fun n => n + 1) })

/-! ### Group joining: the `fractal_commands.py` variant (lines 13–89) -/

structure FCFractalGroup where
  name : String
  facilitator : Nat
  members : List Nat
deriving DecidableEq

/-- `FractalGroup.add_member` of fractal_commands.py (lines 23–29):
at most 6 members, no duplicates. -/
def FCFractalGroup.add_member (g : FCFractalGroup) (member : Nat) :
    Bool × FCFractalGroup :=
  if g.members.length < 6 then
    if member ∉ g.members then (true, { g with members := g.members ++ [member] })
    else (false, g)
  else (false, g)

/-- `FractalGroup.is_full` of fractal_commands.py (lines 38–40). -/
def FCFractalGroup.is_full (g : FCFractalGroup) : Bool :=
  decide (6 ≤ g.members.length)

/-- Outcome reported to the user by a join-button callback. -/
inductive JoinOutcome
  | joined
  | groupFull
  | alreadyInThisGroup
  | alreadyInAnotherGroup
deriving DecidableEq

/-- `JoinButton.callback` of fractal_commands.py (lines 54–89): fullness is
checked first; `add_member` returning `False` can only mean the user is
already in this very group — there is no cross-group check at all. -/
def fcJoinCallback (g : FCFractalGroup) (user : Nat) :
    JoinOutcome × FCFractalGroup :=
  if g.is_full then (.groupFull, g)
  else
    let r := g.add_member user
    if r.1 then (.joined, r.2) else (.alreadyInThisGroup, r.2)

/-! ### Group joining: the `cogs/fractal` variant (`views.py` lines 51–105,
`group.py` lines 207–240), which keeps a member-to-thread registry
`cog.member_groups` -/

structure CogFractalGroup where
  name : String
  thread_id : Nat
  facilitator : Nat
  members : List Nat
  spectators : List Nat
  external_voters : List Nat
deriving DecidableEq

/-- `FractalGroup.is_full` of group.py (lines 237–240), with
`MAX_GROUP_SIZE = 6` from config.py. -/
def CogFractalGroup.is_full (g : CogFractalGroup) : Bool :=
  decide (6 ≤ g.members.length)

/-- `FractalGroup.add_member` of group.py (lines 207–210). -/
def CogFractalGroup.add_member (g : CogFractalGroup) (member : Nat) :
    CogFractalGroup :=
  if member ∉ g.members then { g with members := g.members ++ [member] } else g

/-- `JoinButton.callback` of views.py (lines 63–105): fullness is checked
first; then a member registered in `member_groups` under a different
thread is rejected; otherwise the member is added to the group and the
registry entry is set to this group's thread.  (The `FractalCog not
found` error path concerns only the platform adapter and is omitted.) -/
def cogJoinCallback (g : CogFractalGroup) (member_groups : List (Nat × Nat))
    (user : Nat) : JoinOutcome × CogFractalGroup × List (Nat × Nat) :=
  if g.is_full then (.groupFull, g, member_groups)
  else
    let proceed :=
      match dlookup member_groups user with
      | some existing_thread_id => existing_thread_id == g.thread_id
      | none => true
    if proceed then (.joined, g.add_member user, dset member_groups user g.thread_id)
    else (.alreadyInAnotherGroup, g, member_groups)

/-! ### Derived quantities and specification-side definitions -/

/-- The tally the session stores for candidate `c` (0 when absent). -/
def tallyOf (s : RespectVote) (c : Nat) : Int := (dlookup s.votes c).getD 0

/-- `sum(self.votes.values())`. -/
def sumTally (s : RespectVote) : Int := (s.votes.map Prod.snd).sum

/-- Number of voters whose recorded choice is `c`. -/
def countFor (choices : List (Nat × Nat)) (c : Nat) : Nat :=
  (choices.filter (fun p => p.2 == c)).length

/-- Apply a sequence of `record_vote` calls. -/
def applyVotes (s : RespectVote) (calls : List (Nat × Nat)) : RespectVote :=
  calls.foldl (fun st call => (st.record_vote call.1 call.2).2) s

/-- Winner resolution as the specification words it (for the refinement
comparison of claim C4): the first candidate in candidate-pool order whose
tally meets the threshold, otherwise the candidate with the maximum tally,
ties broken by lowest index in the candidate pool. -/
def resolve_winner_spec (s : RespectVote) : Option Nat :=
  match s.members.find? (fun c => decide (s.threshold ≤ (tallyOf s c : ℚ))) with
  | some c => some c
  | none =>
    s.members.find? (fun c => s.members.all (fun d => decide (tallyOf s d ≤ tallyOf s c)))

/-- Invariants of a `RespectVote` that hold at every reachable state of a
round: the tally keys are exactly the current candidate pool (in order),
identifiers are duplicate-free, recorded choices come from eligible voters
and name pool members, and every stored count equals the number of voters
currently choosing that candidate. -/
structure RoundInv (s : RespectVote) : Prop where
  keys_votes : s.votes.map Prod.fst = s.members
  members_nodup : s.members.Nodup
  orig_nodup : s.original_members.Nodup
  members_sub : ∀ m ∈ s.members, m ∈ s.original_members
  choices_keys_nodup : (s.voter_choices.map Prod.fst).Nodup
  choices_voter_orig : ∀ p ∈ s.voter_choices, p.1 ∈ s.original_members
  choices_cand_mem : ∀ p ∈ s.voter_choices, p.2 ∈ s.members
  counts : ∀ c ∈ s.members,
    dlookup s.votes c = some ((countFor s.voter_choices c : Int))

/-! ### Concrete sessions used as test inputs -/

/-- A session over the two members `0` and `1`. -/
def sessionTwo : RespectVote := RespectVote.init [0, 1] none

/-- `sessionTwo` after member `0` votes for member `1` (threshold `2/2 = 1`
is reached, so the round is complete and `1` is the round-1 winner). -/
def sessionTwoVoted : RespectVote := (sessionTwo.record_vote 0 1).2

/-- `sessionTwoVoted` after `complete_round` runs its terminal branch. -/
def sessionTwoFinal : RespectVote :=
  (sessionTwoVoted.complete_round.getD (sessionTwoVoted, false)).1

/-- A session over the three members `0`, `1` and `2`. -/
def sessionThree : RespectVote := RespectVote.init [0, 1, 2] none

/-- `sessionThree` after members `0` and `1` both vote for `0`
(tally `2 ≥ 3/2`, so round 1 is complete with winner `0`). -/
def sessionThreeR1 : RespectVote :=
  ((sessionThree.record_vote 0 0).2.record_vote 1 0).2

/-- `sessionThreeR1` after the continue button calls `start_new_round`:
round 2 over the remaining pool `[1, 2]`. -/
def sessionThreeR2 : RespectVote := (sessionThreeR1.start_new_round).1

/-- `sessionThreeR2` after members `0` and `1` both vote for `1`
(tally `2 ≥ 3/2`, so round 2 is complete with winner `1`). -/
def sessionThreeR2Voted : RespectVote :=
  ((sessionThreeR2.record_vote 0 1).2.record_vote 1 1).2

/-- `sessionThreeR2Voted` after `complete_round` runs its terminal branch. -/
def sessionThreeFinal : RespectVote :=
  (sessionThreeR2Voted.complete_round.getD (sessionThreeR2Voted, false)).1

/-- A fractal_commands.py group G2 whose only member is its facilitator. -/
def fcGroupTwo : FCFractalGroup := { name := "G2", facilitator := 2, members := [2] }

/-- A cogs/fractal group G2 (thread 200) that is at capacity. -/
def groupTwoFull : CogFractalGroup :=
  { name := "G2", thread_id := 200, facilitator := 2,
    members := [2, 3, 4, 5, 6, 7], spectators := [], external_voters := [] }

/-- A registry recording that member 1 belongs to group G1 (thread 100). -/
def registryOne : List (Nat × Nat) := [(1, 100)]

/-- A cogs/fractal group G2 (thread 200) with room to spare. -/
def groupTwoSmall : CogFractalGroup :=
  { name := "G2", thread_id := 200, facilitator := 2,
    members := [2], spectators := [], external_voters := [] }

/-! ### Theorems -/

/-! #### Ordered-dictionary lemmas -/

theorem dlookup_cons {α : Type} (p : Nat × α) (d : List (Nat × α)) (k : Nat) :
    dlookup (p :: d) k = if p.1 == k then some p.2 else dlookup d k := by
  simp only [dlookup, List.find?]
  cases h : p.1 == k <;> simp [h]

theorem dlookup_cons_pos {α : Type} {x : Nat × α} {d : List (Nat × α)} {k : Nat}
    (h : (x.1 == k) = true) : dlookup (x :: d) k = some x.2 := by
  rw [dlookup_cons, if_pos h]

theorem dlookup_cons_neg {α : Type} {x : Nat × α} {d : List (Nat × α)} {k : Nat}
    (h : (x.1 == k) = false) : dlookup (x :: d) k = dlookup d k := by
  rw [dlookup_cons, if_neg (by simp [h])]

theorem dmem_iff {α : Type} (d : List (Nat × α)) (k : Nat) :
    dmem d k = true ↔ k ∈ d.map Prod.fst := by
  simp [dmem, List.any_eq_true, List.mem_map, beq_iff_eq]

theorem dmem_false_iff {α : Type} (d : List (Nat × α)) (k : Nat) :
    dmem d k = false ↔ k ∉ d.map Prod.fst := by
  rw [← dmem_iff]
  cases dmem d k <;> simp

theorem dlookup_mem {α : Type} {d : List (Nat × α)} {k : Nat} {v : α}
    (h : dlookup d k = some v) : (k, v) ∈ d := by
  induction d with
  | nil => simp [dlookup] at h
  | cons p rest ih =>
    rw [dlookup_cons] at h
    by_cases hp : p.1 = k
    · obtain ⟨p1, p2⟩ := p
      simp only at hp
      subst hp
      simp only [beq_self_eq_true, if_pos] at h
      obtain rfl : p2 = v := by simpa using h
      exact List.mem_cons_self _ _
    · rw [if_neg (by simpa using hp)] at h
      exact List.mem_cons_of_mem _ (ih h)

theorem dlookup_mem_keys {α : Type} {d : List (Nat × α)} {k : Nat} {v : α}
    (h : dlookup d k = some v) : k ∈ d.map Prod.fst :=
  List.mem_map.mpr ⟨(k, v), dlookup_mem h, rfl⟩

theorem dlookup_eq_none_of_not_mem {α : Type} {d : List (Nat × α)} {k : Nat}
    (h : k ∉ d.map Prod.fst) : dlookup d k = none := by
  induction d with
  | nil => rfl
  | cons p rest ih =>
    simp only [List.map_cons, List.mem_cons] at h
    push_neg at h
    rw [dlookup_cons, if_neg (by simpa using (Ne.symm h.1)), ih h.2]

theorem dlookup_of_mem_nodup {α : Type} {d : List (Nat × α)} {k : Nat} {v : α}
    (hnd : (d.map Prod.fst).Nodup) (h : (k, v) ∈ d) : dlookup d k = some v := by
  induction d with
  | nil => simp at h
  | cons p rest ih =>
    simp only [List.map_cons, List.nodup_cons] at hnd
    rcases List.mem_cons.mp h with rfl | hmem
    · rw [dlookup_cons]; simp
    · have hk : p.1 ≠ k := by
        intro he
        exact hnd.1 (by rw [he]; exact List.mem_map.mpr ⟨(k, v), hmem, rfl⟩)
      rw [dlookup_cons, if_neg (by simpa using hk), ih hnd.2 hmem]

theorem keys_dmodify {α : Type} (d : List (Nat × α)) (k : Nat) (f : α → α) :
    (dmodify d k f).map Prod.fst = d.map Prod.fst := by
  induction d with
  | nil => rfl
  | cons p rest ih =>
    simp only [dmodify] at ih ⊢
    by_cases hk : p.1 = k
    · have h1 : (if (p.1 == k) = true then (p.1, f p.2) else p) = (p.1, f p.2) := by
        simp [hk]
      simp only [List.map_cons, h1, ih]
    · have h1 : (if (p.1 == k) = true then (p.1, f p.2) else p) = p := by
        simp [hk]
      simp only [List.map_cons, h1, ih]

theorem keys_dsetMap {α : Type} (d : List (Nat × α)) (k : Nat) (v : α) :
    (dsetMap d k v).map Prod.fst = d.map Prod.fst := by
  induction d with
  | nil => rfl
  | cons p rest ih =>
    simp only [dsetMap] at ih ⊢
    by_cases hk : p.1 = k
    · have h1 : (if (p.1 == k) = true then (p.1, v) else p) = (p.1, v) := by
        simp [hk]
      simp only [List.map_cons, h1, ih]
    · have h1 : (if (p.1 == k) = true then (p.1, v) else p) = p := by
        simp [hk]
      simp only [List.map_cons, h1, ih]

theorem dlookup_dmodify {α : Type} (d : List (Nat × α)) (k c : Nat) (f : α → α) :
    dlookup (dmodify d k f) c =
      if c = k then (dlookup d c).map f else dlookup d c := by
  induction d with
  | nil => simp [dlookup, dmodify]
  | cons p rest ih =>
    simp only [dmodify] at ih ⊢
    rw [List.map_cons]
    by_cases hk : p.1 = k
    · have h1 : (if (p.1 == k) = true then (p.1, f p.2) else p) = (p.1, f p.2) := by
        simp [hk]
      rw [h1]
      by_cases hc : p.1 = c
      · have hck : c = k := by rw [← hc, hk]
        have hcb1 : (((p.1, f p.2) : Nat × α).1 == c) = true := by simpa using hc
        have hcb2 : (p.1 == c) = true := by simpa using hc
        rw [dlookup_cons_pos hcb1, dlookup_cons_pos hcb2, if_pos hck]
        rfl
      · have hck : ¬ c = k := fun h => hc (by rw [hk, ← h])
        have hcb1 : (((p.1, f p.2) : Nat × α).1 == c) = false := by simpa using hc
        have hcb2 : (p.1 == c) = false := by simpa using hc
        rw [dlookup_cons_neg hcb1, dlookup_cons_neg hcb2, if_neg hck, ih, if_neg hck]
    · have h1 : (if (p.1 == k) = true then (p.1, f p.2) else p) = p := by
        simp [hk]
      rw [h1]
      by_cases hc : p.1 = c
      · have hck : ¬ c = k := fun h => hk (hc.trans h)
        have hcb2 : (p.1 == c) = true := by simpa using hc
        rw [dlookup_cons_pos hcb2, dlookup_cons_pos hcb2, if_neg hck]
      · have hcb2 : (p.1 == c) = false := by simpa using hc
        rw [dlookup_cons_neg hcb2, dlookup_cons_neg hcb2, ih]

theorem dlookup_dsetMap {α : Type} (d : List (Nat × α)) (k c : Nat) (v : α) :
    dlookup (dsetMap d k v) c =
      if c = k then (dlookup d c).map (fun _ => v) else dlookup d c := by
  induction d with
  | nil => simp [dlookup, dsetMap]
  | cons p rest ih =>
    simp only [dsetMap] at ih ⊢
    rw [List.map_cons]
    by_cases hk : p.1 = k
    · have h1 : (if (p.1 == k) = true then (p.1, v) else p) = (p.1, v) := by
        simp [hk]
      rw [h1]
      by_cases hc : p.1 = c
      · have hck : c = k := by rw [← hc, hk]
        have hcb1 : (((p.1, v) : Nat × α).1 == c) = true := by simpa using hc
        have hcb2 : (p.1 == c) = true := by simpa using hc
        rw [dlookup_cons_pos hcb1, dlookup_cons_pos hcb2, if_pos hck]
        rfl
      · have hck : ¬ c = k := fun h => hc (by rw [hk, ← h])
        have hcb1 : (((p.1, v) : Nat × α).1 == c) = false := by simpa using hc
        have hcb2 : (p.1 == c) = false := by simpa using hc
        rw [dlookup_cons_neg hcb1, dlookup_cons_neg hcb2, if_neg hck, ih, if_neg hck]
    · have h1 : (if (p.1 == k) = true then (p.1, v) else p) = p := by
        simp [hk]
      rw [h1]
      by_cases hc : p.1 = c
      · have hck : ¬ c = k := fun h => hk (hc.trans h)
        have hcb2 : (p.1 == c) = true := by simpa using hc
        rw [dlookup_cons_pos hcb2, dlookup_cons_pos hcb2, if_neg hck]
      · have hcb2 : (p.1 == c) = false := by simpa using hc
        rw [dlookup_cons_neg hcb2, dlookup_cons_neg hcb2, ih]

theorem dlookup_append_of_none {α : Type} {d : List (Nat × α)} {c : Nat}
    (e : List (Nat × α)) (h : dlookup d c = none) :
    dlookup (d ++ e) c = dlookup e c := by
  induction d with
  | nil => rfl
  | cons p rest ih =>
    rw [dlookup_cons] at h
    by_cases hpc : (p.1 == c) = true
    · simp [hpc] at h
    · have hpc' : (p.1 == c) = false := by simpa using hpc
      rw [List.cons_append, dlookup_cons, if_neg (by simp [hpc'])]
      exact ih (by simpa [hpc'] using h)

theorem dlookup_append_of_some {α : Type} {d : List (Nat × α)} {c : Nat} {v : α}
    (e : List (Nat × α)) (h : dlookup d c = some v) :
    dlookup (d ++ e) c = some v := by
  induction d with
  | nil => simp [dlookup] at h
  | cons p rest ih =>
    rw [dlookup_cons] at h
    rw [List.cons_append, dlookup_cons]
    by_cases hpc : (p.1 == c) = true
    · simpa [hpc] using h
    · have hpc' : (p.1 == c) = false := by simpa using hpc
      rw [if_neg (by simp [hpc'])]
      exact ih (by simpa [hpc'] using h)

theorem dsetMap_of_not_mem {α : Type} (d : List (Nat × α)) (k : Nat) (v : α) :
    k ∉ d.map Prod.fst → dsetMap d k v = d := by
  induction d with
  | nil => intro _; rfl
  | cons p rest ih =>
    intro h
    simp only [List.map_cons, List.mem_cons] at h
    push_neg at h
    have hb : ¬ (p.1 == k) = true := by simpa using (Ne.symm h.1)
    simp only [dsetMap, List.map_cons] at ih ⊢
    rw [if_neg hb]
    exact congrArg (List.cons p) (ih h.2)

theorem countFor_cons (p : Nat × Nat) (ch : List (Nat × Nat)) (c : Nat) :
    countFor (p :: ch) c = (if p.2 == c then 1 else 0) + countFor ch c := by
  simp only [countFor, List.filter_cons]
  cases h : p.2 == c <;> simp [h, Nat.add_comm]

theorem countFor_append (ch1 ch2 : List (Nat × Nat)) (c : Nat) :
    countFor (ch1 ++ ch2) c = countFor ch1 c + countFor ch2 c := by
  simp [countFor, List.filter_append]

theorem countFor_dsetMap (ch : List (Nat × Nat)) (k w v c : Nat) :
    (ch.map Prod.fst).Nodup → dlookup ch k = some w →
    countFor (dsetMap ch k v) c + (if w = c then 1 else 0)
      = countFor ch c + (if v = c then 1 else 0) := by
  induction ch with
  | nil => intro _ hw; simp [dlookup] at hw
  | cons p rest ih =>
    intro hnd hw
    simp only [List.map_cons, List.nodup_cons] at hnd
    by_cases hk : p.1 = k
    · have hb : (p.1 == k) = true := by simpa using hk
      have hw2 : some p.2 = some w := by rw [← hw, dlookup_cons_pos hb]
      obtain rfl : p.2 = w := by injection hw2
      have hknr : k ∉ rest.map Prod.fst := by rw [← hk]; exact hnd.1
      have hrest : dsetMap rest k v = rest := dsetMap_of_not_mem rest k v hknr
      have hhead : (if (p.1 == k) = true then (p.1, v) else p) = (p.1, v) := by
        simp [hb]
      simp only [dsetMap, List.map_cons]
      simp only [dsetMap] at hrest
      rw [hhead, hrest, countFor_cons, countFor_cons]
      by_cases hvc : v = c <;> by_cases hpc : p.2 = c <;>
        simp [hvc, hpc] <;> omega
    · have hb : (p.1 == k) = false := by simpa using hk
      rw [dlookup_cons_neg hb] at hw
      have hhead : (if (p.1 == k) = true then (p.1, v) else p) = p := by
        simp [hb]
      simp only [dsetMap, List.map_cons]
      rw [hhead, countFor_cons, countFor_cons]
      have ihh := ih hnd.2 hw
      simp only [dsetMap] at ihh
      by_cases hwc : w = c <;> by_cases hvc : v = c <;> by_cases hpc : p.2 = c <;>
        simp [hwc, hvc, hpc] at ihh ⊢ <;> omega

theorem sum_indicator_zero (ms : List Nat) (a : Nat) :
    a ∉ ms → (ms.map (fun c => if a == c then (1 : Int) else 0)).sum = 0 := by
  induction ms with
  | nil => intro _; rfl
  | cons m rest ih =>
    intro h
    simp only [List.mem_cons] at h
    push_neg at h
    have hb : (a == m) = false := by simpa using h.1
    have hhead : (if (a == m) = true then (1 : Int) else 0) = 0 := by
      rw [hb]; simp
    rw [List.map_cons, List.sum_cons, hhead, ih h.2, add_zero]

theorem sum_indicator (ms : List Nat) (a : Nat) :
    ms.Nodup → a ∈ ms →
    (ms.map (fun c => if a == c then (1 : Int) else 0)).sum = 1 := by
  induction ms with
  | nil => intro _ h; simp at h
  | cons m rest ih =>
    intro hnd hmem
    simp only [List.nodup_cons] at hnd
    rcases List.mem_cons.mp hmem with rfl | h
    · have hz := sum_indicator_zero rest a hnd.1
      have hhead : (if (a == a) = true then (1 : Int) else 0) = 1 := by simp
      rw [List.map_cons, List.sum_cons, hhead, hz, add_zero]
    · have hne : (a == m) = false := by
        have hnm : a ≠ m := fun he => hnd.1 (he ▸ h)
        simpa using hnm
      have hhead : (if (a == m) = true then (1 : Int) else 0) = 0 := by
        rw [hne]; simp
      rw [List.map_cons, List.sum_cons, hhead, ih hnd.2 h, zero_add]

theorem sum_map_add (ms : List Nat) (f g : Nat → Int) :
    (ms.map (fun c => f c + g c)).sum = (ms.map f).sum + (ms.map g).sum := by
  induction ms with
  | nil => rfl
  | cons m rest ih =>
    simp only [List.map_cons, List.sum_cons, ih]
    ring

theorem sum_countFor (ms : List Nat) (ch : List (Nat × Nat)) :
    ms.Nodup → (∀ p ∈ ch, p.2 ∈ ms) →
    (ms.map (fun c => (countFor ch c : Int))).sum = (ch.length : Int) := by
  induction ch with
  | nil => intro _ _; simp [countFor]
  | cons p rest ih =>
    intro hnd h
    have hmap : ms.map (fun c => (countFor (p :: rest) c : Int))
        = ms.map (fun c => (if p.2 == c then (1 : Int) else 0) + (countFor rest c : Int)) := by
      apply List.map_congr_left
      intro c _
      rw [countFor_cons]
      cases hpc : p.2 == c <;> simp [hpc]
    rw [hmap, sum_map_add, sum_indicator ms p.2 hnd (h p (List.mem_cons_self p rest)),
      ih hnd (fun q hq => h q (List.mem_cons_of_mem p hq))]
    simp [List.length_cons]
    ring

theorem sum_values (d : List (Nat × Int)) (g : Nat → Int) :
    (d.map Prod.fst).Nodup →
    (∀ k ∈ d.map Prod.fst, dlookup d k = some (g k)) →
    (d.map Prod.snd).sum = ((d.map Prod.fst).map g).sum := by
  induction d with
  | nil => intro _ _; rfl
  | cons p rest ih =>
    intro hnd h
    simp only [List.map_cons, List.nodup_cons] at hnd ⊢
    have hp : p.2 = g p.1 := by
      have hh := h p.1 (by simp)
      rw [dlookup_cons_pos (by simp)] at hh
      injection hh
    have hrest : ∀ k ∈ rest.map Prod.fst, dlookup rest k = some (g k) := by
      intro k hk
      have hne : p.1 ≠ k := fun he => hnd.1 (he ▸ hk)
      have hh := h k (by simp [hk])
      rw [dlookup_cons_neg (by simpa using hne)] at hh
      exact hh
    rw [List.sum_cons, List.sum_cons, hp, ih hnd.2 hrest]

theorem find_congr_mem {α : Type} (l : List α) (p q : α → Bool) :
    (∀ x ∈ l, p x = q x) → l.find? p = l.find? q := by
  induction l with
  | nil => intro _; rfl
  | cons a rest ih =>
    intro h
    have ha := h a (List.mem_cons_self a rest)
    rw [List.find?_cons, List.find?_cons, ha,
      ih (fun x hx => h x (List.mem_cons_of_mem a hx))]

theorem find_assoc (d : List (Nat × Int)) (q : Int → Bool) :
    (d.map Prod.fst).Nodup →
    (d.find? (fun p => q p.2)).map Prod.fst
      = (d.map Prod.fst).find? (fun c => q ((dlookup d c).getD 0)) := by
  induction d with
  | nil => intro _; rfl
  | cons p rest ih =>
    intro hnd
    simp only [List.map_cons, List.nodup_cons] at hnd ⊢
    have hself : dlookup (p :: rest) p.1 = some p.2 := dlookup_cons_pos (by simp)
    have htail : (rest.map Prod.fst).find? (fun c => q ((dlookup (p :: rest) c).getD 0))
        = (rest.map Prod.fst).find? (fun c => q ((dlookup rest c).getD 0)) := by
      apply find_congr_mem
      intro c hc
      have hne : p.1 ≠ c := fun he => hnd.1 (he ▸ hc)
      rw [dlookup_cons_neg (by simpa using hne)]
    rw [List.find?_cons, List.find?_cons]
    cases hq : q p.2 with
    | true =>
      have h2 : q ((dlookup (p :: rest) p.1).getD 0) = true := by
        rw [hself]; exact hq
      simp only [hq, h2]
      rfl
    | false =>
      have h2 : q ((dlookup (p :: rest) p.1).getD 0) = false := by
        rw [hself]; exact hq
      simp only [hq, h2]
      rw [htail]
      exact ih hnd.2

theorem maxBySnd_mem (p : Nat × Int) (ps : List (Nat × Int)) :
    maxBySnd p ps ∈ p :: ps := by
  induction ps generalizing p with
  | nil => simp [maxBySnd]
  | cons r rs ih =>
    simp only [maxBySnd, List.foldl_cons] at ih ⊢
    have hmem := ih (if p.2 < r.2 then r else p)
    rcases List.mem_cons.mp hmem with h | h
    · rw [h]
      split
      · exact List.mem_cons_of_mem _ (List.mem_cons_self _ _)
      · exact List.mem_cons_self _ _
    · exact List.mem_cons_of_mem _ (List.mem_cons_of_mem _ h)

theorem maxBySnd_le (p : Nat × Int) (ps : List (Nat × Int)) :
    ∀ q ∈ p :: ps, q.2 ≤ (maxBySnd p ps).2 := by
  induction ps generalizing p with
  | nil =>
    intro q hq
    rcases List.mem_cons.mp hq with rfl | h
    · simp [maxBySnd]
    · simp at h
  | cons r rs ih =>
    intro q hq
    simp only [maxBySnd, List.foldl_cons] at ih ⊢
    have hp : p.2 ≤ (if p.2 < r.2 then r else p).2 := by
      split <;> omega
    have hr : r.2 ≤ (if p.2 < r.2 then r else p).2 := by
      split <;> omega
    rcases List.mem_cons.mp hq with rfl | h
    · exact le_trans hp (ih _ _ (List.mem_cons_self _ _))
    · rcases List.mem_cons.mp h with rfl | h2
      · exact le_trans hr (ih _ _ (List.mem_cons_self _ _))
      · exact ih _ q (List.mem_cons_of_mem _ h2)

theorem find_maxBySnd (p : Nat × Int) (ps : List (Nat × Int)) :
    (p :: ps).find? (fun q => decide ((maxBySnd p ps).2 ≤ q.2))
      = some (maxBySnd p ps) := by
  induction ps generalizing p with
  | nil => simp [maxBySnd, List.find?]
  | cons r rs ih =>
    simp only [maxBySnd, List.foldl_cons] at ih ⊢
    by_cases hpr : p.2 < r.2
    · have hstep : (if p.2 < r.2 then r else p) = r := if_pos hpr
      simp only [hstep]
      have hger : r.2 ≤ (List.foldl (fun acc q => if acc.2 < q.2 then q else acc) r rs).2 := by
        have := maxBySnd_le r rs r (List.mem_cons_self _ _)
        simpa [maxBySnd] using this
      have hheadP : (decide ((List.foldl (fun acc q => if acc.2 < q.2 then q else acc) r rs).2 ≤ p.2)) = false := by
        simp only [decide_eq_false_iff_not]
        omega
      rw [List.find?_cons, hheadP]
      exact ih r
    · have hstep : (if p.2 < r.2 then r else p) = p := if_neg hpr
      simp only [hstep]
      have hihp := ih p
      have hgep : p.2 ≤ (List.foldl (fun acc q => if acc.2 < q.2 then q else acc) p rs).2 := by
        have := maxBySnd_le p rs p (List.mem_cons_self _ _)
        simpa [maxBySnd] using this
      rw [List.find?_cons] at hihp
      cases hMp : (decide ((List.foldl (fun acc q => if acc.2 < q.2 then q else acc) p rs).2 ≤ p.2)) with
      | true =>
        rw [hMp] at hihp
        rw [List.find?_cons, hMp]
        exact hihp
      | false =>
        have hMp' : ¬ (List.foldl (fun acc q => if acc.2 < q.2 then q else acc) p rs).2 ≤ p.2 := by
          simpa using hMp
        have hheadR : (decide ((List.foldl (fun acc q => if acc.2 < q.2 then q else acc) p rs).2 ≤ r.2)) = false := by
          simp only [decide_eq_false_iff_not]
          omega
        rw [hMp] at hihp
        rw [List.find?_cons, hMp, List.find?_cons, hheadR]
        exact hihp

theorem dlookup_isSome_of_mem_keys {α : Type} {d : List (Nat × α)} {k : Nat} :
    k ∈ d.map Prod.fst → ∃ v, dlookup d k = some v := by
  induction d with
  | nil => intro h; simp at h
  | cons p rest ih =>
    intro h
    by_cases hpk : (p.1 == k) = true
    · exact ⟨p.2, dlookup_cons_pos hpk⟩
    · have hpk' : (p.1 == k) = false := by
        cases hb : p.1 == k
        · rfl
        · exact absurd hb hpk
      rw [List.map_cons] at h
      have hk : k ∈ rest.map Prod.fst := by
        rcases List.mem_cons.mp h with he | hm
        · exact absurd (by simp [he]) hpk
        · exact hm
      obtain ⟨v, hv⟩ := ih hk
      exact ⟨v, by rw [dlookup_cons_neg hpk', hv]⟩

theorem mem_dsetMap {α : Type} {ch : List (Nat × α)} {k : Nat} {v : α} {q : Nat × α} :
    q ∈ dsetMap ch k v → ∃ q0 ∈ ch, q.1 = q0.1 ∧ (q = q0 ∨ q.2 = v) := by
  intro h
  obtain ⟨q0, hq0, hq⟩ := List.mem_map.mp h
  by_cases hk : (q0.1 == k) = true
  · rw [if_pos hk] at hq
    exact ⟨q0, hq0, by rw [← hq], Or.inr (by rw [← hq])⟩
  · rw [if_neg hk] at hq
    exact ⟨q0, hq0, by rw [hq], Or.inl hq.symm⟩

theorem dlookup_init_votes (ms : List Nat) (c : Nat) :
    c ∈ ms → dlookup (ms.map (fun m => (m, (0 : Int)))) c = some 0 := by
  induction ms with
  | nil => intro h; simp at h
  | cons m rest ih =>
    intro h
    rw [List.map_cons]
    by_cases hmc : (m == c) = true
    · have hmc2 : (((m, (0 : Int)) : Nat × Int).1 == c) = true := hmc
      exact dlookup_cons_pos hmc2
    · have hmc' : (((m, (0 : Int)) : Nat × Int).1 == c) = false := by
        cases hb : m == c
        · rfl
        · exact absurd hb hmc
      rw [dlookup_cons_neg hmc']
      apply ih
      rcases List.mem_cons.mp h with rfl | hm
      · exact absurd (by simp) hmc
      · exact hm

/-- The invariants hold at the start of a session. -/
theorem roundInv_init (members : List Nat) (ldr : Option Nat)
    (hnd : members.Nodup) : RoundInv (RespectVote.init members ldr) := by
  refine ⟨?_, hnd, hnd, ?_, ?_, ?_, ?_, ?_⟩
  · dsimp only [RespectVote.init]
    rw [List.map_map]
    have hcomp : List.map (Prod.fst ∘ fun m => (m, (0 : Int))) members
        = List.map id members := List.map_congr_left (fun a _ => rfl)
    rw [hcomp, List.map_id]
  · intro m hm; exact hm
  · simp [RespectVote.init]
  · intro p hp; simp [RespectVote.init] at hp
  · intro p hp; simp [RespectVote.init] at hp
  · intro c hc
    dsimp only [RespectVote.init] at hc ⊢
    rw [dlookup_init_votes members c hc]
    simp [countFor]

/-- `record_vote` preserves the invariants, whether it accepts or rejects. -/
theorem roundInv_record_vote (s : RespectVote) (voter candidate : Nat)
    (h : RoundInv s) : RoundInv (s.record_vote voter candidate).2 := by
  unfold RespectVote.record_vote
  by_cases hacc : voter ∈ s.original_members ∧ candidate ∈ s.members
  · rw [if_pos hacc]
    obtain ⟨hvo, hcm⟩ := hacc
    cases hprev : dlookup s.voter_choices voter with
    | none =>
      simp only [hprev]
      have hvnot : voter ∉ s.voter_choices.map Prod.fst := by
        intro hm
        obtain ⟨v, hv⟩ := dlookup_isSome_of_mem_keys hm
        rw [hprev] at hv
        exact Option.noConfusion hv
      have hdm : dmem s.voter_choices voter = false := (dmem_false_iff _ _).mpr hvnot
      have hdset : dset s.voter_choices voter candidate
          = s.voter_choices ++ [(voter, candidate)] := by
        unfold dset
        rw [if_neg (by simp [hdm])]
      refine ⟨?_, h.members_nodup, h.orig_nodup, h.members_sub, ?_, ?_, ?_, ?_⟩
      · dsimp only
        rw [keys_dmodify, h.keys_votes]
      · dsimp only
        rw [hdset, List.map_append, List.nodup_append]
        exact ⟨h.choices_keys_nodup, by simp,
          by intro a ha hb; simp at hb; exact hvnot (hb ▸ ha)⟩
      · intro p hp
        dsimp only at hp ⊢
        rw [hdset] at hp
        rcases List.mem_append.mp hp with hp | hp
        · exact h.choices_voter_orig p hp
        · obtain rfl : p = (voter, candidate) := by simpa using hp
          exact hvo
      · intro p hp
        dsimp only at hp ⊢
        rw [hdset] at hp
        rcases List.mem_append.mp hp with hp | hp
        · exact h.choices_cand_mem p hp
        · obtain rfl : p = (voter, candidate) := by simpa using hp
          exact hcm
      · intro c hc
        dsimp only at hc ⊢
        rw [dlookup_dmodify, hdset, countFor_append]
        have hbase := h.counts c hc
        by_cases hcc : c = candidate
        · subst hcc
          have hsingle : countFor [(voter, c)] c = 1 := by
            rw [countFor_cons]
            simp [countFor]
          rw [if_pos rfl, hbase, hsingle]
          simp only [Option.map_some']
          congr 1
        · have hsingle : countFor [(voter, candidate)] c = 0 := by
            rw [countFor_cons]
            have hb : (candidate == c) = false := by
              simpa using fun he => hcc he.symm
            simp [countFor, hb]
          rw [if_neg hcc, hbase, hsingle]
          norm_num
    | some prev =>
      simp only [hprev]
      have hpm : (voter, prev) ∈ s.voter_choices := dlookup_mem hprev
      have hprevMem : prev ∈ s.members := h.choices_cand_mem _ hpm
      have hdmv : dmem s.votes prev = true :=
        (dmem_iff _ _).mpr (by rw [h.keys_votes]; exact hprevMem)
      rw [if_pos hdmv]
      have hdmc : dmem s.voter_choices voter = true :=
        (dmem_iff _ _).mpr (dlookup_mem_keys hprev)
      have hdset : dset s.voter_choices voter candidate
          = dsetMap s.voter_choices voter candidate := by
        unfold dset
        rw [if_pos hdmc]
      refine ⟨?_, h.members_nodup, h.orig_nodup, h.members_sub, ?_, ?_, ?_, ?_⟩
      · dsimp only
        rw [keys_dmodify, keys_dmodify, h.keys_votes]
      · dsimp only
        rw [hdset, keys_dsetMap]
        exact h.choices_keys_nodup
      · intro p hp
        dsimp only at hp ⊢
        rw [hdset] at hp
        obtain ⟨q0, hq0, hfst, _⟩ := mem_dsetMap hp
        rw [hfst]
        exact h.choices_voter_orig q0 hq0
      · intro p hp
        dsimp only at hp ⊢
        rw [hdset] at hp
        obtain ⟨q0, hq0, _, hsnd⟩ := mem_dsetMap hp
        rcases hsnd with rfl | hv
        · exact h.choices_cand_mem p hq0
        · rw [hv]; exact hcm
      · intro c hc
        dsimp only at hc ⊢
        rw [dlookup_dmodify, dlookup_dmodify, hdset]
        have hbase := h.counts c hc
        have hcfs := countFor_dsetMap s.voter_choices voter prev candidate c
          h.choices_keys_nodup hprev
        by_cases h1 : c = candidate <;> by_cases h2 : c = prev
        · rw [if_pos h2.symm, if_pos h1.symm] at hcfs
          rw [if_pos h1, if_pos h2, hbase]
          simp only [Option.map_some']
          congr 1
          omega
        · rw [if_neg (fun he => h2 he.symm), if_pos h1.symm] at hcfs
          rw [if_pos h1, if_neg h2, hbase]
          simp only [Option.map_some']
          congr 1
          omega
        · rw [if_pos h2.symm, if_neg (fun he => h1 he.symm)] at hcfs
          rw [if_neg h1, if_pos h2, hbase]
          simp only [Option.map_some']
          congr 1
          omega
        · rw [if_neg (fun he => h2 he.symm), if_neg (fun he => h1 he.symm)] at hcfs
          rw [if_neg h1, if_neg h2, hbase]
          congr 1
          omega
  · rw [if_neg hacc]
    exact h

/-- The invariants are preserved along any sequence of `record_vote` calls. -/
theorem roundInv_applyVotes (s : RespectVote) (calls : List (Nat × Nat))
    (h : RoundInv s) : RoundInv (applyVotes s calls) := by
  induction calls generalizing s with
  | nil => exact h
  | cons c rest ih => exact ih _ (roundInv_record_vote s c.1 c.2 h)

/-- Under the invariants the stored counts sum to the number of ballots. -/
theorem sumTally_eq_of_inv (s : RespectVote) (h : RoundInv s) :
    sumTally s = (s.voter_choices.length : Int) := by
  unfold sumTally
  have hnd : (s.votes.map Prod.fst).Nodup := by
    rw [h.keys_votes]; exact h.members_nodup
  have hg : ∀ k ∈ s.votes.map Prod.fst,
      dlookup s.votes k = some ((countFor s.voter_choices k : Int)) := by
    intro k hk
    exact h.counts k (by rw [← h.keys_votes]; exact hk)
  rw [sum_values s.votes (fun k => (countFor s.voter_choices k : Int)) hnd hg,
    h.keys_votes]
  exact sum_countFor s.members s.voter_choices h.members_nodup
    (fun p hp => h.choices_cand_mem p hp)

/-- `record_vote` mutates only `votes` and `voter_choices`. -/
theorem record_vote_immutable (s : RespectVote) (voter candidate : Nat) :
    (s.record_vote voter candidate).2.original_members = s.original_members ∧
    (s.record_vote voter candidate).2.members = s.members ∧
    (s.record_vote voter candidate).2.threshold = s.threshold ∧
    (s.record_vote voter candidate).2.total_members = s.total_members ∧
    (s.record_vote voter candidate).2.current_round = s.current_round ∧
    (s.record_vote voter candidate).2.round_winners = s.round_winners := by
  unfold RespectVote.record_vote
  by_cases hacc : voter ∈ s.original_members ∧ candidate ∈ s.members
  · rw [if_pos hacc]
    cases hprev : dlookup s.voter_choices voter with
    | none =>
      simp only [hprev]
      simp
    | some prev =>
      simp only [hprev]
      by_cases hdm : dmem s.votes prev = true
      · rw [if_pos hdm]
        simp
      · rw [if_neg hdm]
        simp
  · rw [if_neg hacc]
    exact ⟨rfl, rfl, rfl, rfl, rfl, rfl⟩

/-- Under the invariants, `is_round_complete` is equivalent to full turnout
or a tally meeting the threshold. -/
theorem is_round_complete_iff_of_inv (s : RespectVote) (h : RoundInv s) :
    s.is_round_complete = true ↔
      (s.voter_choices.length = s.original_members.length
       ∨ ∃ c ∈ s.members, s.threshold ≤ ((tallyOf s c : Int) : ℚ)) := by
  have hsub : (s.voter_choices.map Prod.fst) ⊆ s.original_members := by
    intro k hk
    obtain ⟨p, hp, rfl⟩ := List.mem_map.mp hk
    exact h.choices_voter_orig p hp
  have hle : s.voter_choices.length ≤ s.original_members.length := by
    have hsp := (List.subperm_of_subset h.choices_keys_nodup hsub).length_le
    simpa using hsp
  have hkeysnd : (s.votes.map Prod.fst).Nodup := by
    rw [h.keys_votes]; exact h.members_nodup
  unfold RespectVote.is_round_complete RespectVote.check_threshold_reached
  rw [Bool.or_eq_true, decide_eq_true_eq, Option.isSome_map']
  constructor
  · rintro (hlen | hsome)
    · exact Or.inl (le_antisymm hle hlen)
    · right
      obtain ⟨q, hq, hpred⟩ := List.find?_isSome.mp hsome
      refine ⟨q.1, by rw [← h.keys_votes]; exact List.mem_map.mpr ⟨q, hq, rfl⟩, ?_⟩
      have hlook : dlookup s.votes q.1 = some q.2 :=
        dlookup_of_mem_nodup hkeysnd (by simpa using hq)
      have htq : tallyOf s q.1 = q.2 := by
        unfold tallyOf
        rw [hlook]
        rfl
      rw [htq]
      simpa using hpred
  · rintro (hlen | ⟨c, hc, hth⟩)
    · exact Or.inl (le_of_eq hlen.symm)
    · right
      have hlook := h.counts c hc
      have hmem : (c, ((countFor s.voter_choices c : Int))) ∈ s.votes :=
        dlookup_mem hlook
      apply List.find?_isSome.mpr
      refine ⟨(c, ((countFor s.voter_choices c : Int))), hmem, ?_⟩
      have htq : tallyOf s c = ((countFor s.voter_choices c : Int)) := by
        unfold tallyOf
        rw [hlook]
        rfl
      rw [htq] at hth
      simpa using hth

/-- C2: starting from a fresh session over duplicate-free members, after any
sequence of `record_vote` calls the tally values sum to the number of
recorded choices, and each candidate's stored count is exactly the number
of voters whose current choice is that candidate (so each voter is counted
for at most one candidate). -/
theorem tally_sum_matches_choices (members : List Nat) (ldr : Option Nat)
    (calls : List (Nat × Nat)) (hnd : members.Nodup) :
    sumTally (applyVotes (RespectVote.init members ldr) calls)
        = ((applyVotes (RespectVote.init members ldr) calls).voter_choices.length : Int)
    ∧ ∀ c ∈ (applyVotes (RespectVote.init members ldr) calls).members,
        dlookup (applyVotes (RespectVote.init members ldr) calls).votes c
          = some ((countFor
              (applyVotes (RespectVote.init members ldr) calls).voter_choices c : Int)) := by
  have hinv := roundInv_applyVotes _ calls (roundInv_init members ldr hnd)
  exact ⟨sumTally_eq_of_inv _ hinv, hinv.counts⟩

theorem tally_sum_matches_choices_witness :
    sumTally (applyVotes (RespectVote.init [0, 1, 2] none) [(0, 1), (1, 1), (0, 2)])
      = ((applyVotes (RespectVote.init [0, 1, 2] none)
          [(0, 1), (1, 1), (0, 2)]).voter_choices.length : Int) :=
  (tally_sum_matches_choices [0, 1, 2] none [(0, 1), (1, 1), (0, 2)] (by decide)).1

/-- C3: after an accepted vote the callback reports the round complete
exactly when the number of recorded choices equals the number of original
members or some pool candidate's tally meets the threshold (the completion
flag returned by the vote step is the `is_round_complete` check run on the
post-vote state). -/
theorem round_completion_condition (s : RespectVote) (voter candidate : Nat)
    (h : RoundInv s) :
    ((s.record_vote voter candidate).2.is_round_complete = true ↔
      ((s.record_vote voter candidate).2.voter_choices.length
          = (s.record_vote voter candidate).2.original_members.length
       ∨ ∃ c ∈ (s.record_vote voter candidate).2.members,
           (s.record_vote voter candidate).2.threshold
             ≤ ((tallyOf (s.record_vote voter candidate).2 c : Int) : ℚ)))
    ∧ (voter ∈ s.original_members →
        (s.voteStep voter candidate).2.2
          = (s.record_vote voter candidate).2.is_round_complete) := by
  constructor
  · exact is_round_complete_iff_of_inv _ (roundInv_record_vote s voter candidate h)
  · intro hvo
    unfold RespectVote.voteStep
    rw [if_pos hvo]

theorem round_completion_condition_witness :
    ((RespectVote.init [0, 1] none).record_vote 0 1).2.is_round_complete = true :=
  ((round_completion_condition (RespectVote.init [0, 1] none) 0 1
      (roundInv_init [0, 1] none (by decide))).1.mpr
    (Or.inr ⟨1, by with_unfolding_all decide, by with_unfolding_all decide⟩))

theorem all_congr_mem {α : Type} (l : List α) (p q : α → Bool) :
    (∀ x ∈ l, p x = q x) → l.all p = l.all q := by
  induction l with
  | nil => intro _; rfl
  | cons a rest ih =>
    intro h
    rw [List.all_cons, List.all_cons, h a (List.mem_cons_self a rest),
      ih (fun x hx => h x (List.mem_cons_of_mem a hx))]

theorem all_assoc (d : List (Nat × Int)) (g : Int → Bool) :
    (d.map Prod.fst).Nodup →
    d.all (fun q => g q.2) = (d.map Prod.fst).all (fun c => g ((dlookup d c).getD 0)) := by
  induction d with
  | nil => intro _; rfl
  | cons p rest ih =>
    intro hnd
    simp only [List.map_cons, List.nodup_cons] at hnd
    rw [List.all_cons, List.map_cons, List.all_cons]
    have hself : dlookup (p :: rest) p.1 = some p.2 := dlookup_cons_pos (by simp)
    have htail : (rest.map Prod.fst).all (fun c => g ((dlookup (p :: rest) c).getD 0))
        = (rest.map Prod.fst).all (fun c => g ((dlookup rest c).getD 0)) := by
      apply all_congr_mem
      intro c hc
      have hne : p.1 ≠ c := fun he => hnd.1 (he ▸ hc)
      rw [dlookup_cons_neg (by simpa using hne)]
    simp only [hself, Option.getD_some]
    rw [htail, ih hnd.2]

/-- Under the invariants, `check_threshold_reached` returns the first
candidate in candidate-pool order whose tally meets the threshold. -/
theorem check_threshold_spec (s : RespectVote) (h : RoundInv s) :
    s.check_threshold_reached
      = s.members.find? (fun c => decide (s.threshold ≤ ((tallyOf s c : Int) : ℚ))) := by
  have hnd : (s.votes.map Prod.fst).Nodup := by
    rw [h.keys_votes]; exact h.members_nodup
  have hfa := find_assoc s.votes (fun v => decide (s.threshold ≤ (v : ℚ))) hnd
  rw [h.keys_votes] at hfa
  exact hfa

/-- C4: under the invariants, `get_round_winner` coincides with the
deterministic resolution rule the specification describes: the first
candidate in pool order whose tally meets the threshold, otherwise the
candidate with the maximum tally, ties broken by lowest pool index. -/
theorem winner_resolution_deterministic (s : RespectVote) (h : RoundInv s) :
    s.get_round_winner = resolve_winner_spec s := by
  have hth := check_threshold_spec s h
  unfold RespectVote.get_round_winner resolve_winner_spec
  rw [hth]
  cases hfind : s.members.find?
      (fun c => decide (s.threshold ≤ ((tallyOf s c : Int) : ℚ))) with
  | some w => rfl
  | none =>
    cases hv : s.votes with
    | nil =>
      have hm : s.members = [] := by rw [← h.keys_votes, hv]; rfl
      rw [hm]
      rfl
    | cons p ps =>
      have hnd : ((p :: ps).map Prod.fst).Nodup := by
        rw [← hv, h.keys_votes]; exact h.members_nodup
      have hkeys : (p :: ps).map Prod.fst = s.members := by
        rw [← hv]; exact h.keys_votes
      have hMmem : maxBySnd p ps ∈ p :: ps := maxBySnd_mem p ps
      have hMle : ∀ q ∈ p :: ps, q.2 ≤ (maxBySnd p ps).2 := maxBySnd_le p ps
      have hfm : (p :: ps).find? (fun q => decide ((maxBySnd p ps).2 ≤ q.2))
          = some (maxBySnd p ps) := find_maxBySnd p ps
      have hcongr : (p :: ps).find? (fun q => decide ((maxBySnd p ps).2 ≤ q.2))
          = (p :: ps).find? (fun q => (p :: ps).all (fun x => decide (x.2 ≤ q.2))) := by
        apply find_congr_mem
        intro x hx
        cases hdx : decide ((maxBySnd p ps).2 ≤ x.2) with
        | true =>
          have hMx : (maxBySnd p ps).2 ≤ x.2 := of_decide_eq_true hdx
          exact (List.all_eq_true.mpr
            (fun y hy => decide_eq_true (le_trans (hMle y hy) hMx))).symm
        | false =>
          symm
          rw [List.all_eq_false]
          exact ⟨maxBySnd p ps, hMmem, by simpa using of_decide_eq_false hdx⟩
      have h1 : ((p :: ps).find?
            (fun q => (p :: ps).all (fun x => decide (x.2 ≤ q.2)))).map Prod.fst
          = some (maxBySnd p ps).1 := by
        rw [← hcongr, hfm]
        rfl
      have h2 := find_assoc (p :: ps)
        (fun v => (p :: ps).all (fun x => decide (x.2 ≤ v))) hnd
      rw [hkeys] at h2
      have h3 : s.members.find?
            (fun c => (p :: ps).all (fun x => decide (x.2 ≤ (dlookup (p :: ps) c).getD 0)))
          = s.members.find? (fun c => s.members.all
              (fun d => decide (tallyOf s d ≤ tallyOf s c))) := by
        apply find_congr_mem
        intro c _
        have hall := all_assoc (p :: ps)
          (fun v => decide (v ≤ (dlookup (p :: ps) c).getD 0)) hnd
        rw [hkeys] at hall
        simp only [tallyOf, hv]
        exact hall
      rw [← h3, ← h2]
      exact h1.symm

theorem winner_resolution_deterministic_witness :
    sessionThreeR2Voted.get_round_winner = resolve_winner_spec sessionThreeR2Voted := by
  have hinv : RoundInv sessionThreeR2Voted := by
    have h0 : RoundInv sessionThreeR2 := by
      refine ⟨?_, ?_, ?_, ?_, ?_, ?_, ?_, ?_⟩ <;> with_unfolding_all decide
    exact roundInv_record_vote _ 1 1 (roundInv_record_vote _ 0 1 h0)
  exact winner_resolution_deterministic sessionThreeR2Voted hinv

theorem dmodify_cancel (d : List (Nat × Int)) (k : Nat) :
    dmodify (dmodify d k (fun n => n - 1)) k (fun n => n + 1) = d := by
  induction d with
  | nil => rfl
  | cons p rest ih =>
    simp only [dmodify, List.map_cons] at ih ⊢
    by_cases hk : (p.1 == k) = true
    · rw [if_pos hk]
      have hk2 : (((p.1, p.2 - 1) : Nat × Int).1 == k) = true := hk
      rw [if_pos hk2, ih]
      have hv : p.2 - 1 + 1 = p.2 := by ring
      rw [hv]
    · rw [if_neg hk, if_neg hk, ih]

theorem dsetMap_self (ch : List (Nat × Nat)) (k v : Nat) :
    (ch.map Prod.fst).Nodup → dlookup ch k = some v → dsetMap ch k v = ch := by
  induction ch with
  | nil => intro _ hl; simp [dlookup] at hl
  | cons p rest ih =>
    intro hnd hl
    simp only [List.map_cons, List.nodup_cons] at hnd
    by_cases hk : (p.1 == k) = true
    · have hsome : some p.2 = some v := by rw [← hl, dlookup_cons_pos hk]
      obtain rfl : p.2 = v := by injection hsome
      have hke : p.1 = k := by simpa using hk
      have hknr : k ∉ rest.map Prod.fst := hke ▸ hnd.1
      have hrest := dsetMap_of_not_mem rest k p.2 hknr
      simp only [dsetMap, List.map_cons] at hrest ⊢
      rw [if_pos hk, hrest]
    · have hk' : (p.1 == k) = false := by
        cases hb : p.1 == k
        · rfl
        · exact absurd hb hk
      rw [dlookup_cons_neg hk'] at hl
      simp only [dsetMap, List.map_cons] at ih ⊢
      rw [if_neg hk, ih hnd.2 hl]

theorem dlookup_dset_self {α : Type} (ch : List (Nat × α)) (k : Nat) (v : α) :
    dlookup (dset ch k v) k = some v := by
  unfold dset
  by_cases hm : dmem ch k = true
  · rw [if_pos hm, dlookup_dsetMap, if_pos rfl]
    obtain ⟨w, hw⟩ := dlookup_isSome_of_mem_keys ((dmem_iff _ _).mp hm)
    rw [hw]
    rfl
  · have hm' : dmem ch k = false := by
      cases hb : dmem ch k
      · rfl
      · exact absurd hb hm
    rw [if_neg (by simp [hm'])]
    rw [dlookup_append_of_none _
      (dlookup_eq_none_of_not_mem ((dmem_false_iff _ _).mp hm'))]
    exact dlookup_cons_pos (by simp)

/-- An accepted vote leaves the voter's recorded choice at the candidate. -/
theorem record_vote_sets_choice (s : RespectVote) (voter candidate : Nat)
    (hvo : voter ∈ s.original_members) (hcm : candidate ∈ s.members) :
    dlookup (s.record_vote voter candidate).2.voter_choices voter
      = some candidate := by
  unfold RespectVote.record_vote
  rw [if_pos ⟨hvo, hcm⟩]
  cases hprev : dlookup s.voter_choices voter with
  | none =>
    simp only [hprev]
    exact dlookup_dset_self _ _ _
  | some prev =>
    simp only [hprev]
    by_cases hdm : dmem s.votes prev = true
    · rw [if_pos hdm]
      exact dlookup_dset_self _ _ _
    · rw [if_neg hdm]
      exact dlookup_dset_self _ _ _

/-- Re-casting the recorded choice is accepted and leaves the whole state
unchanged: the decrement of the candidate's count cancels the increment. -/
theorem record_vote_noop (s : RespectVote) (voter candidate : Nat)
    (h : RoundInv s) (hch : dlookup s.voter_choices voter = some candidate) :
    s.record_vote voter candidate = (true, s) := by
  have hpm := dlookup_mem hch
  have hvo : voter ∈ s.original_members := h.choices_voter_orig _ hpm
  have hcm : candidate ∈ s.members := h.choices_cand_mem _ hpm
  unfold RespectVote.record_vote
  rw [if_pos ⟨hvo, hcm⟩]
  simp only [hch]
  have hdmv : dmem s.votes candidate = true :=
    (dmem_iff _ _).mpr (by rw [h.keys_votes]; exact hcm)
  rw [if_pos hdmv]
  have hdmc : dmem s.voter_choices voter = true :=
    (dmem_iff _ _).mpr (dlookup_mem_keys hch)
  have hdset : dset s.voter_choices voter candidate = s.voter_choices := by
    unfold dset
    rw [if_pos hdmc]
    exact dsetMap_self s.voter_choices voter candidate h.choices_keys_nodup hch
  have hvotes : dmodify (dmodify s.votes candidate (fun n => n - 1)) candidate
      (fun n => n + 1) = s.votes := dmodify_cancel s.votes candidate
  dsimp only
  rw [hvotes, hdset]

/-- C10: a voter whose recorded choice is already this candidate can cast
the same vote again: it is accepted and the observable state (tally and
choices) is unchanged, so recording the same vote twice equals recording
it once. -/
theorem repeat_vote_idempotent (s : RespectVote) (voter candidate : Nat)
    (h : RoundInv s) :
    (dlookup s.voter_choices voter = some candidate →
      s.record_vote voter candidate = (true, s))
    ∧ (voter ∈ s.original_members → candidate ∈ s.members →
        ((s.record_vote voter candidate).2).record_vote voter candidate
          = (true, (s.record_vote voter candidate).2)) := by
  refine ⟨fun hch => record_vote_noop s voter candidate h hch, fun hvo hcm => ?_⟩
  exact record_vote_noop _ voter candidate (roundInv_record_vote s voter candidate h)
    (record_vote_sets_choice s voter candidate hvo hcm)

theorem repeat_vote_idempotent_witness :
    ((RespectVote.init [0, 1] none).record_vote 0 1).2.record_vote 0 1
      = (true, ((RespectVote.init [0, 1] none).record_vote 0 1).2) :=
  (repeat_vote_idempotent (RespectVote.init [0, 1] none) 0 1
    (roundInv_init [0, 1] none (by decide))).2 (by decide) (by decide)

/-- C8 amended: a vote naming a candidate outside the current pool is
rejected with the unchanged state — but the rejection is the same plain
`False` the method returns for an ineligible voter; no distinct
`CandidateNotInPool` kind exists. -/
theorem vote_rejection_unchanged (s : RespectVote) (voter candidate : Nat) :
    (candidate ∉ s.members → s.record_vote voter candidate = (false, s))
    ∧ (voter ∉ s.original_members → s.record_vote voter candidate = (false, s)) := by
  constructor
  · intro hx
    unfold RespectVote.record_vote
    rw [if_neg (fun hacc => hx hacc.2)]
  · intro hx
    unfold RespectVote.record_vote
    rw [if_neg (fun hacc => hx hacc.1)]

theorem vote_rejection_unchanged_witness :
    sessionThreeR2.record_vote 0 0 = (false, sessionThreeR2) :=
  (vote_rejection_unchanged sessionThreeR2 0 0).1 (by with_unfolding_all decide)

/-- `start_new_round` never changes `original_members`, and either keeps
the threshold or reassigns it to half the original member count. -/
theorem start_new_round_immutable (s : RespectVote) :
    (s.start_new_round).1.original_members = s.original_members
    ∧ ((s.start_new_round).1.threshold = s.threshold
       ∨ (s.start_new_round).1.threshold = ((s.original_members.length : ℚ) / 2)) := by
  unfold RespectVote.start_new_round
  cases hw : s.get_round_winner with
  | some w =>
    simp only [hw]
    constructor
    · split <;> (try split) <;> rfl
    · split <;> (try split) <;>
        first
          | exact Or.inl rfl
          | exact Or.inr rfl
  | none =>
    simp only [hw]
    constructor
    · split <;> rfl
    · split
      · exact Or.inl rfl
      · exact Or.inr rfl

/-- C1 amended: the stored threshold is exactly half the original member
count (not its ceiling); it is set at session start, untouched by votes,
and reassigned to the same value at each round transition, so it holds for
the whole session; and since tallies are integers, a tally meets it
exactly when it is at least `ceil(len(originalMembers)/2)`. -/
theorem threshold_half_invariant (mems : List Nat) (ldr : Option Nat)
    (s : RespectVote) (voter candidate : Nat) (n : ℤ)
    (h : s.threshold = (s.original_members.length : ℚ) / 2) :
    (RespectVote.init mems ldr).threshold
        = ((RespectVote.init mems ldr).original_members.length : ℚ) / 2
    ∧ (s.record_vote voter candidate).2.threshold = s.threshold
    ∧ (s.record_vote voter candidate).2.original_members = s.original_members
    ∧ (s.start_new_round).1.original_members = s.original_members
    ∧ (s.start_new_round).1.threshold
        = (((s.start_new_round).1.original_members.length : ℚ)) / 2
    ∧ (s.threshold ≤ (n : ℚ) ↔ ⌈((s.original_members.length : ℚ)) / 2⌉ ≤ n) := by
  have him := start_new_round_immutable s
  refine ⟨rfl, (record_vote_immutable s voter candidate).2.2.1,
    (record_vote_immutable s voter candidate).1, him.1, ?_, ?_⟩
  · rcases him.2 with ht | ht
    · rw [ht, h, him.1]
    · rw [ht, him.1]
  · rw [h]
    exact Int.ceil_le.symm

theorem threshold_half_invariant_witness :
    ((RespectVote.init [0, 1, 2] none).threshold ≤ ((2 : ℤ) : ℚ)
      ↔ ⌈(((RespectVote.init [0, 1, 2] none).original_members.length : ℚ)) / 2⌉
          ≤ (2 : ℤ)) :=
  (threshold_half_invariant [0, 1, 2] none (RespectVote.init [0, 1, 2] none)
    0 0 2 rfl).2.2.2.2.2

/-- C6 amended, part structure: when the pool shrinks to exactly two
candidates a further voting round is held; at that round's completion the
session finalizes both remaining candidates, ranking the non-winner first
(appended by `complete_round`) and the round winner last (recovered later
from `originalMembers` by the final-results assembly). -/
theorem two_candidate_round_behavior :
    (∀ (s : RespectVote) (w : Nat), s.get_round_winner = some w → w ∈ s.members →
      (s.members.erase w).length = 2 →
      ((s.start_new_round).1.members = s.members.erase w
       ∧ (s.start_new_round).1.current_round = s.current_round + 1
       ∧ (s.start_new_round).1.voter_choices = []
       ∧ (s.start_new_round).1.votes
           = (s.members.erase w).map (fun m => (m, (0 : Int)))))
    ∧ (∀ (t : RespectVote) (c1 c2 w2 last : Nat), t.members = [c1, c2] → c1 ≠ c2 →
        t.get_round_winner = some w2 →
        ((w2 = c1 ∧ last = c2) ∨ (w2 = c2 ∧ last = c1)) →
        (t.complete_round
            = some ({ t with round_winners := t.round_winners ++ [last] }, true)
         ∧ ((t.original_members.filter
              (fun m => !((t.round_winners ++ [last]).contains m)) = [w2]) →
            (({ t with round_winners := t.round_winners ++ [last] }).show_final_results).2
              = t.round_winners ++ [last, w2]))) := by
  constructor
  · intro s w hw hmem hlen
    unfold RespectVote.start_new_round
    simp only [hw]
    rw [if_pos hmem]
    rw [if_neg (by rw [hlen]; omega)]
    exact ⟨rfl, rfl, rfl, rfl⟩
  · intro t c1 c2 w2 last ht hne hw2 hcase
    constructor
    · unfold RespectVote.complete_round
      rw [hw2]
      simp only [Option.some_bind]
      rw [ht]
      rw [if_neg (by simp)]
      rw [if_pos (by simp)]
      rcases hcase with ⟨hwc, hlc⟩ | ⟨hwc, hlc⟩
      · subst hwc
        subst hlc
        have h21 : (last == w2) = false := by simpa using (Ne.symm hne)
        have hf : [w2, last].filter (fun m => !(m == w2)) = [last] := by
          simp [h21]
        rw [hf]
      · subst hwc
        subst hlc
        have h12 : (last == w2) = false := by simpa using hne
        have hf : [last, w2].filter (fun m => !(m == w2)) = [last] := by
          simp [h12]
        rw [hf]
    · intro hfilter
      unfold RespectVote.show_final_results
      dsimp only
      rw [hfilter]
      simp

theorem two_candidate_round_behavior_witness :
    sessionThreeR2Voted.complete_round
      = some ({ sessionThreeR2Voted with
                  round_winners := sessionThreeR2Voted.round_winners ++ [2] }, true) :=
  (two_candidate_round_behavior.2 sessionThreeR2Voted 1 2 1 2
    (by with_unfolding_all decide) (by decide) (by with_unfolding_all decide)
    (Or.inl ⟨rfl, rfl⟩)).1

/-- Prepending the winners list to the not-yet-ranked original members
permutes the original member list. -/
theorem final_extension_perm (rws orig : List Nat)
    (hwnd : rws.Nodup) (hond : orig.Nodup) (hsub : ∀ m ∈ rws, m ∈ orig) :
    List.Perm (rws ++ orig.filter (fun m => !(rws.contains m))) orig := by
  rw [List.perm_iff_count]
  intro a
  rw [List.count_append]
  by_cases ha : a ∈ rws
  · have h1 : rws.count a = 1 := List.count_eq_one_of_mem hwnd ha
    have hc : rws.contains a = true := by simpa using ha
    have h2 : (orig.filter (fun m => !(rws.contains m))).count a = 0 := by
      apply List.count_eq_zero_of_not_mem
      intro hmem
      have hpa := List.of_mem_filter hmem
      rw [hc] at hpa
      simp at hpa
    have h3 : orig.count a = 1 := List.count_eq_one_of_mem hond (hsub a ha)
    omega
  · have hc : rws.contains a = false := by simpa using ha
    have h1 : rws.count a = 0 := List.count_eq_zero_of_not_mem ha
    have h2 : (orig.filter (fun m => !(rws.contains m))).count a = orig.count a :=
      List.count_filter (by rw [hc]; rfl)
    omega

/-- C7 amended: the final list is the round winners followed by the
not-yet-ranked original members in `originalMembers` order; it covers
every original participant exactly once; and every position `k` (0-based)
is awarded `fibonacci_points[k]` with `0` beyond position 6 — including
the appended members, which therefore receive positional points rather
than an unconditional `0`. -/
theorem final_awards_positional (s : RespectVote)
    (hond : s.original_members.Nodup) (hwnd : s.round_winners.Nodup)
    (hsub : ∀ m ∈ s.round_winners, m ∈ s.original_members) :
    (s.show_final_results).2
        = s.round_winners
          ++ s.original_members.filter (fun m => !(s.round_winners.contains m))
    ∧ (s.show_final_results).2.length = s.original_members.length
    ∧ (∀ m ∈ s.original_members, (s.show_final_results).2.count m = 1)
    ∧ (∀ m ∈ (s.show_final_results).2, m ∈ s.original_members)
    ∧ (∀ k w, (s.show_final_results).2[k]? = some w →
        (awardPoints (s.show_final_results).2)[k]?
          = some (w, if k < 6 then fibonacci_points.getD k 0 else 0)) := by
  have hperm := final_extension_perm s.round_winners s.original_members hwnd hond hsub
  have hfin : (s.show_final_results).2
      = s.round_winners
        ++ s.original_members.filter (fun m => !(s.round_winners.contains m)) := rfl
  refine ⟨hfin, ?_, ?_, ?_, ?_⟩
  · rw [hfin]
    exact hperm.length_eq
  · intro m _
    rw [hfin, hperm.count_eq]
    exact List.count_eq_one_of_mem hond (by assumption)
  · intro m hm
    rw [hfin] at hm
    exact hperm.mem_iff.mp hm
  · intro k w hk
    unfold awardPoints
    rw [List.getElem?_map, List.getElem?_enum, hk]
    rfl

theorem final_awards_positional_witness :
    (sessionTwoFinal.show_final_results).2.length
      = sessionTwoFinal.original_members.length :=
  (final_awards_positional sessionTwoFinal (by with_unfolding_all decide)
    (by with_unfolding_all decide) (by with_unfolding_all decide)).2.1

/-- C9, counterexample: member 1 belongs to group G1 (thread 100), yet the
fractal_commands join callback accepts them into G2 and mutates G2's
member set (it has no cross-group check at all), while the cogs/fractal
join callback on a full G2 reports GroupFull, not the claimed
already-in-group rejection. -/
theorem join_cross_group_not_rejected :
    fcJoinCallback fcGroupTwo 1
        = (JoinOutcome.joined, { fcGroupTwo with members := [2, 1] })
    ∧ cogJoinCallback groupTwoFull registryOne 1
        = (JoinOutcome.groupFull, groupTwoFull, registryOne) := by
  constructor
  · decide
  · decide

/-- C9 amended: in the cogs/fractal implementation, a member whose
registry entry names a different thread is rejected with the
already-in-another-group error and no state change — provided the target
group is not full, since the fullness check runs first and reports
GroupFull (also without state change). -/
theorem join_already_in_other_group (g : CogFractalGroup)
    (mg : List (Nat × Nat)) (u tid : Nat)
    (hin : dlookup mg u = some tid) (hdiff : tid ≠ g.thread_id) :
    (g.is_full = false →
      cogJoinCallback g mg u = (JoinOutcome.alreadyInAnotherGroup, g, mg))
    ∧ (g.is_full = true →
      cogJoinCallback g mg u = (JoinOutcome.groupFull, g, mg)) := by
  constructor
  · intro hfull
    unfold cogJoinCallback
    rw [if_neg (by simp [hfull])]
    simp only [hin]
    rw [if_neg (by simpa using hdiff)]
  · intro hfull
    unfold cogJoinCallback
    rw [if_pos hfull]

theorem join_already_in_other_group_witness :
    cogJoinCallback groupTwoSmall registryOne 1
      = (JoinOutcome.alreadyInAnotherGroup, groupTwoSmall, registryOne) :=
  (join_already_in_other_group groupTwoSmall registryOne 1 100
    (by decide) (by decide)).1 (by decide)

/-- C1, counterexample: with five original members the stored threshold is
`5/2`, not `ceil(5/2) = 3`, so the winning threshold does not equal
`ceil(len(originalMembers)/2)`. -/
theorem threshold_is_not_ceil_half :
    (RespectVote.init [0, 1, 2, 3, 4] none).threshold ≠
      ((⌈((RespectVote.init [0, 1, 2, 3, 4] none).original_members.length : ℚ) / 2⌉ : ℤ) : ℚ) := by
  have h : ((RespectVote.init [0, 1, 2, 3, 4] none).original_members.length : ℚ) / 2
      = (5 : ℚ) / 2 := by norm_num [RespectVote.init]
  have hc : (⌈((5 : ℚ) / 2)⌉ : ℤ) = 3 := by
    rw [Int.ceil_eq_iff]
    norm_num
  rw [h, hc]
  norm_num [RespectVote.init]

/-- C5, code bug at a concrete input: in the two-member session `[0, 1]`,
member `0` votes for `1`; the round completes with announced winner `1`,
yet the final rankings are `[0, 1]` — the round-1 winner is ranked second
and the zero-vote loser first. -/
theorem final_rankings_demote_last_winner :
    sessionTwoVoted.is_round_complete = true ∧
    sessionTwoVoted.get_round_winner = some 1 ∧
    sessionTwoVoted.complete_round = some (sessionTwoFinal, true) ∧
    (sessionTwoFinal.show_final_results).2 = [0, 1] := by with_unfolding_all decide

/-- C6, counterexample: in the three-member session, after round 1 ends the
pool `[1, 2]` of exactly 2 candidates enters round 2 as a fresh voting
round (not a finalization), and when that round ends with winner `1` the
rankings gain `2` and then `1` — not candidate-pool order `[1, 2]`. -/
theorem two_candidate_round_is_voted :
    sessionThreeR1.is_round_complete = true ∧
    sessionThreeR1.complete_round = some (sessionThreeR1, false) ∧
    sessionThreeR2.members = [1, 2] ∧
    sessionThreeR2.current_round = 2 ∧
    sessionThreeR2.voter_choices = [] ∧
    sessionThreeR2.votes = [(1, 0), (2, 0)] ∧
    sessionThreeR2Voted.get_round_winner = some 1 ∧
    (sessionThreeFinal.show_final_results).2 = [0, 2, 1] := by with_unfolding_all decide

/-- C7, counterexample: in the finalized two-member session, member `1` is
absent from the rankings (`round_winners = [0]`) and is appended at the
end, yet receives `68` points — position-based, not the claimed `0`. -/
theorem appended_member_gets_positional_points :
    sessionTwoFinal.round_winners = [0] ∧
    1 ∈ sessionTwoFinal.original_members ∧
    sessionTwoFinal.round_winners.contains 1 = false ∧
    awardPoints (sessionTwoFinal.show_final_results).2 = [(0, 110), (1, 68)] := by with_unfolding_all decide

/-- C8, counterexample: in round 2 of the three-member session, a vote for
the eliminated candidate `0` is rejected with the same generic `False`
(and unchanged state) as a vote by the ineligible voter `7` — the
rejection carries no specific `CandidateNotInPool` kind that callers could
distinguish. -/
theorem eliminated_candidate_rejection_is_generic :
    sessionThreeR2.members.contains 0 = false ∧
    sessionThreeR2.record_vote 0 0 = (false, sessionThreeR2) ∧
    sessionThreeR2.record_vote 7 1 = (false, sessionThreeR2) ∧
    sessionThreeR2.record_vote 0 0 = sessionThreeR2.record_vote 7 1 := by with_unfolding_all decide
